import Mathlib

/-!
Verification of the ViolinIntonation real-time pitch engine.

The definitions below are shallow embeddings of the repository's source:
`docs/processor.js` (the audio-worklet engine, in its YIN and FFT variants)
and `src/audio/pitch-utils.ts` (pitch math and spectral utilities).
JavaScript floating-point arithmetic is modelled over `ℝ` where the source
uses transcendental functions (`Math.log2`, `Math.pow`) and over `ℚ` where
the source is purely rational, so that concrete runs can be evaluated by
the kernel.  Division is total in both models (`x / 0 = 0`); the source
only divides by values its own guards keep nonzero, except where noted.
-/

namespace ViolinIntonation

/-! ### Pitch math (src/audio/pitch-utils.ts)

`frequencyToMidi`, `midiToFrequency` and `frequencyToCents` are direct
translations of the TypeScript functions of the same names. -/

/-- `frequencyToMidi(frequency, a4) = 69 + 12 * Math.log2(frequency / a4)`. -/
noncomputable def frequencyToMidi (frequency a4 : ℝ) : ℝ :=
  69 + 12 * Real.logb 2 (frequency / a4)

/-- `midiToFrequency(midi, a4) = a4 * Math.pow(2, (midi - 69) / 12)`. -/
noncomputable def midiToFrequency (midi a4 : ℝ) : ℝ :=
  a4 * (2 : ℝ) ^ ((midi - 69) / 12)

/-- `frequencyToCents(frequency, referenceFrequency) =
    1200 * Math.log2(frequency / referenceFrequency)`. -/
noncomputable def frequencyToCents (frequency referenceFrequency : ℝ) : ℝ :=
  1200 * Real.logb 2 (frequency / referenceFrequency)

/-- C8: the round trip through `midiToFrequency` then `frequencyToMidi` is
exact over the reals, hence certainly within the claimed `1e-6`. -/
theorem frequencyToMidi_midiToFrequency (m a4 : ℝ) (ha : 0 < a4) :
    frequencyToMidi (midiToFrequency m a4) a4 = m := by
  have h1 : midiToFrequency m a4 / a4 = (2 : ℝ) ^ ((m - 69) / 12) := by
    unfold midiToFrequency
    field_simp
  unfold frequencyToMidi
  rw [h1, Real.logb_rpow (by norm_num : (0 : ℝ) < 2) (by norm_num : (2 : ℝ) ≠ 1)]
  ring

lemma frequencyToCents_self (f : ℝ) (hf : f ≠ 0) : frequencyToCents f f = 0 := by
  unfold frequencyToCents
  rw [div_self hf, Real.logb_one, mul_zero]

lemma frequencyToCents_semitone_up (f : ℝ) (hf : 0 < f) :
    frequencyToCents (f * (2 : ℝ) ^ ((1 : ℝ) / 12)) f = 100 := by
  unfold frequencyToCents
  have hr : f * (2 : ℝ) ^ ((1 : ℝ) / 12) / f = (2 : ℝ) ^ ((1 : ℝ) / 12) :=
    mul_div_cancel_left₀ _ (ne_of_gt hf)
  rw [hr, Real.logb_rpow (by norm_num : (0 : ℝ) < 2) (by norm_num : (2 : ℝ) ≠ 1)]
  norm_num

lemma frequencyToCents_semitone_down (f : ℝ) (hf : 0 < f) :
    frequencyToCents f (f * (2 : ℝ) ^ ((1 : ℝ) / 12)) = -100 := by
  unfold frequencyToCents
  have h2 : ((2 : ℝ) ^ ((1 : ℝ) / 12)) ≠ 0 :=
    ne_of_gt (Real.rpow_pos_of_pos (by norm_num) _)
  have hr : f / (f * (2 : ℝ) ^ ((1 : ℝ) / 12)) = (2 : ℝ) ^ (-((1 : ℝ) / 12)) := by
    rw [Real.rpow_neg (by norm_num : (0 : ℝ) ≤ 2)]
    field_simp
  rw [hr, Real.logb_rpow (by norm_num : (0 : ℝ) < 2) (by norm_num : (2 : ℝ) ≠ 1)]
  norm_num

/-- C8: for every MIDI-like note number `m` and tuning reference `a4 > 0`, the
round trip `frequencyToMidi (midiToFrequency m a4) a4` equals `m` to within
`1e-6` (it is in fact exact over the reals). -/
theorem midi_frequency_round_trip (m a4 : ℝ) (ha : 0 < a4) :
    |frequencyToMidi (midiToFrequency m a4) a4 - m| ≤ 1 / 1000000 := by
  rw [frequencyToMidi_midiToFrequency m a4 ha, sub_self, abs_zero]
  norm_num

/-- C8 witness: the round trip at `m = 69`, `a4 = 440`. -/
theorem midi_frequency_round_trip_witness :
    (0 : ℝ) < 440 ∧ |frequencyToMidi (midiToFrequency 69 440) 440 - 69| ≤ 1 / 1000000 :=
  ⟨by norm_num, midi_frequency_round_trip 69 440 (by norm_num)⟩

/-- C9 counterexample: with the source's argument order
`frequencyToCents(frequency, referenceFrequency)`, a frequency one tempered
semitone *below* its reference yields `-100` cents, so the claimed
`cents(f, f·2^(1/12)) ≈ 100` is false (at `f = 440` the value is exactly
`-100`, not `100`). -/
theorem frequencyToCents_semitone_sign_counterexample :
    frequencyToCents 440 (440 * (2 : ℝ) ^ ((1 : ℝ) / 12)) = -100 ∧ (-100 : ℝ) ≠ 100 :=
  ⟨frequencyToCents_semitone_down 440 (by norm_num), by norm_num⟩

/-- C9 amended: for every `f > 0`, `frequencyToCents f f = 0`; a frequency one
tempered semitone above the reference measures `+100` cents, and with the
arguments in the claim's order (`frequency` below, reference above) the value
is `-100`. -/
theorem frequencyToCents_invariants (f : ℝ) (hf : 0 < f) :
    frequencyToCents f f = 0
    ∧ frequencyToCents (f * (2 : ℝ) ^ ((1 : ℝ) / 12)) f = 100
    ∧ frequencyToCents f (f * (2 : ℝ) ^ ((1 : ℝ) / 12)) = -100 :=
  ⟨frequencyToCents_self f (ne_of_gt hf), frequencyToCents_semitone_up f hf,
    frequencyToCents_semitone_down f hf⟩

/-- C9 witness: the cents invariants at `f = 440`. -/
theorem frequencyToCents_invariants_witness :
    (0 : ℝ) < 440 ∧ (frequencyToCents 440 440 = 0
      ∧ frequencyToCents (440 * (2 : ℝ) ^ ((1 : ℝ) / 12)) 440 = 100
      ∧ frequencyToCents 440 (440 * (2 : ℝ) ^ ((1 : ℝ) / 12)) = -100) :=
  ⟨by norm_num, frequencyToCents_invariants 440 (by norm_num)⟩

/-! ### Quantize mode with hysteresis (docs/processor.js, getSynthFrequency)

Per-voice state of the quantize branch: the last committed MIDI note and the
hysteresis counter (`lastQuantizedMidi[index]`, `noteHysteresis[index]`). -/

structure QuantState where
  lastQuantizedMidi : ℤ
  noteHysteresis : ℕ
deriving DecidableEq, Repr

/-- One hop of the quantize branch (processor.js lines 419-431): if the
rounded proposal differs from the committed note, the counter increments and
a count of 3 commits the proposal; a proposal equal to the committed note
resets the counter. -/
def quantizeStep (s : QuantState) (targetMidi : ℤ) : QuantState :=
  if targetMidi ≠ s.lastQuantizedMidi then
    if s.noteHysteresis + 1 ≥ 3 then ⟨targetMidi, 0⟩
    else ⟨s.lastQuantizedMidi, s.noteHysteresis + 1⟩
  else ⟨s.lastQuantizedMidi, 0⟩

/-- The frequency returned by the quantize branch (processor.js line 432):
derived from the committed note after the hysteresis update. -/
noncomputable def quantizeHopFreq (a4 : ℝ) (s : QuantState) (targetMidi : ℤ) : ℝ :=
  a4 * (2 : ℝ) ^ ((((quantizeStep s targetMidi).lastQuantizedMidi : ℝ) - 69) / 12)

/-- States reached while feeding a proposal sequence through the quantize
branch, starting from `s` (initial state included). -/
def quantizeTrace (s : QuantState) (props : List ℤ) : List QuantState :=
  List.scanl quantizeStep s props

/-- C1 counterexample: starting from committed note 60, the mixed proposal
sequence `[61, 62, 61]` commits 61 at its third hop, although the only three
consecutive hops the run contains are not all proposals of 61 — the counter
counts hops that *disagree with the committed note*, not consecutive
agreements on the new note.  So "commits a changed note only after it has
been proposed for at least 3 consecutive hops" is false as stated. -/
theorem quantize_commit_without_consecutive_proposals :
    (quantizeTrace ⟨60, 0⟩ [61, 62, 61]).map QuantState.lastQuantizedMidi
        = [60, 60, 60, 61]
    ∧ ([61, 62, 61] : List ℤ) ≠ [61, 61, 61] := by
  constructor
  · rfl
  · decide

/-- C1 amended: the quantize branch commits a changed note only after at
least 3 consecutive hops whose proposals all differ from the committed note,
committing the third hop's proposal; the counter resets on agreement with
the committed note.  The two cited sequences behave as claimed:
`[60, 61, 60, 61, 60]` from committed 60 never commits, and
`[60, 61, 61, 61, 60]` commits 61 exactly at the third consecutive 61. The
returned frequency is always `a4·2^((committed − 69)/12)`. -/
theorem quantize_hysteresis :
    ((quantizeTrace ⟨60, 0⟩ [60, 61, 60, 61, 60]).map QuantState.lastQuantizedMidi
        = [60, 60, 60, 60, 60, 60])
    ∧ ((quantizeTrace ⟨60, 0⟩ [60, 61, 61, 61, 60]).map QuantState.lastQuantizedMidi
        = [60, 60, 60, 60, 61, 61])
    ∧ (∀ s : QuantState, ∀ m : ℤ, m = s.lastQuantizedMidi →
        quantizeStep s m = ⟨s.lastQuantizedMidi, 0⟩)
    ∧ (∀ s : QuantState, ∀ m : ℤ,
        (quantizeStep s m).lastQuantizedMidi ≠ s.lastQuantizedMidi →
        2 ≤ s.noteHysteresis ∧ m ≠ s.lastQuantizedMidi ∧ quantizeStep s m = ⟨m, 0⟩)
    ∧ (∀ c m1 m2 m3 : ℤ,
        (List.foldl quantizeStep ⟨c, 0⟩ [m1, m2, m3]).lastQuantizedMidi ≠ c →
        m1 ≠ c ∧ m2 ≠ c ∧ m3 ≠ c
          ∧ List.foldl quantizeStep ⟨c, 0⟩ [m1, m2, m3] = ⟨m3, 0⟩)
    ∧ (∀ (a4 : ℝ) (s : QuantState) (m : ℤ), quantizeHopFreq a4 s m =
        a4 * (2 : ℝ) ^ ((((quantizeStep s m).lastQuantizedMidi : ℝ) - 69) / 12)) := by
  refine ⟨rfl, rfl, ?_, ?_, ?_, fun _ _ _ => rfl⟩
  · intro s m h
    simp [quantizeStep, h]
  · intro s m h
    unfold quantizeStep at h ⊢
    split_ifs at h ⊢ with h1 h2 <;> simp_all
  · intro c m1 m2 m3 h
    simp only [List.foldl] at h ⊢
    unfold quantizeStep at h ⊢
    split_ifs at h ⊢ <;> simp_all

/-- C1 witness: with the counter already at 2, a third disagreeing proposal
commits; instantiates the commit-characterisation conjunct at a concrete
state. -/
theorem quantize_hysteresis_witness :
    (quantizeStep ⟨60, 2⟩ 61).lastQuantizedMidi ≠ (60 : ℤ)
    ∧ (2 ≤ (QuantState.mk 60 2).noteHysteresis ∧ (61 : ℤ) ≠ 60
        ∧ quantizeStep ⟨60, 2⟩ 61 = ⟨61, 0⟩) :=
  ⟨by decide, quantize_hysteresis.2.2.2.1 ⟨60, 2⟩ 61 (by decide)⟩

/-! ### Scale mode (src/audio/pitch-utils.ts `snapToScale`; the processor's
scale branch is the same algorithm)

The snapping is modelled at the level of the already-rounded MIDI note,
which is how the claim states it; the `frequencyToMidi`/round front end is
covered by the pitch-math section above.  JS `%` is remainder truncated
toward zero (`Int.tmod`) and `Math.floor` of an integer quotient is floor
division (`Int.fdiv`). -/

/-- Circular semitone distance of the snapping loop:
`Math.min(Math.abs(noteClass - interval), 12 - Math.abs(noteClass - interval))`. -/
def circDist (c i : ℤ) : ℤ := min |c - i| (12 - |c - i|)

/-- One iteration of the nearest-scale-degree loop (pitch-utils lines 82-91):
only a strictly smaller distance replaces the current best, so the first
interval achieving the minimum wins. -/
def nearestStep (c : ℤ) (acc : ℤ × ℤ) (i : ℤ) : ℤ × ℤ :=
  if circDist c i < acc.1 then (circDist c i, i) else acc

/-- The loop over the configured intervals.  `minDistance` starts at
`Infinity` in the source; 13 is equivalent since every circular distance is
at most 6. -/
def nearestInterval (c : ℤ) (intervals : List ℤ) : ℤ :=
  (intervals.foldl (nearestStep c) (13, 0)).2

/-- `((midi % 12) - root + 12) % 12` with JS remainder semantics. -/
def noteClass (midi root : ℤ) : ℤ := Int.tmod (Int.tmod midi 12 - root + 12) 12

/-- `snapToScale` at the MIDI level (pitch-utils lines 70-96): a pitch class
in the scale is kept; otherwise the note is rebuilt from
`Math.floor(roundedMidi / 12)`, the root and the nearest interval. -/
def snapToScaleMidi (roundedMidi root : ℤ) (intervals : List ℤ) : ℤ :=
  if noteClass roundedMidi root ∈ intervals then roundedMidi
  else Int.fdiv roundedMidi 12 * 12 + root
    + nearestInterval (noteClass roundedMidi root) intervals

/-- The frequency `snapToScale` returns: `midiToFrequency(targetMidi, a4)`. -/
noncomputable def snapToScale (roundedMidi root : ℤ) (intervals : List ℤ) (a4 : ℝ) : ℝ :=
  midiToFrequency (snapToScaleMidi roundedMidi root intervals) a4

/-- Modelled from the spec's words for the nearest-member choice: the first
interval, in configured order, achieving the minimum circular semitone
distance (the head wins ties against the best of the tail). -/
def firstNearestInterval (c : ℤ) : List ℤ → Option ℤ
  | [] => none
  | i :: rest =>
    match firstNearestInterval c rest with
    | none => some i
    | some r => if circDist c i ≤ circDist c r then some i else some r

lemma circDist_le_six (c i : ℤ) : circDist c i ≤ 6 := by
  unfold circDist
  rcases le_total |c - i| 6 with h | h
  · exact le_trans (min_le_left _ _) h
  · exact le_trans (min_le_right _ _) (by omega)

lemma firstNearestInterval_nil (c : ℤ) : firstNearestInterval c ([] : List ℤ) = none :=
  rfl

lemma firstNearestInterval_cons (c a : ℤ) (rest : List ℤ) :
    firstNearestInterval c (a :: rest) =
      match firstNearestInterval c rest with
      | none => some a
      | some r => if circDist c a ≤ circDist c r then some a else some r :=
  rfl

lemma firstNearestInterval_isSome (c a : ℤ) (rest : List ℤ) :
    ∃ r, firstNearestInterval c (a :: rest) = some r := by
  rw [firstNearestInterval_cons]
  rcases firstNearestInterval c rest with _ | s
  · exact ⟨a, rfl⟩
  · by_cases hd : circDist c a ≤ circDist c s
    · exact ⟨a, by simp [hd]⟩
    · exact ⟨s, by simp [hd]⟩

lemma firstNearestInterval_mem {c : ℤ} : ∀ {l : List ℤ} {r : ℤ},
    firstNearestInterval c l = some r → r ∈ l := by
  intro l
  induction l with
  | nil => intro r h; simp [firstNearestInterval_nil] at h
  | cons a rest ih =>
    intro r h
    rw [firstNearestInterval_cons] at h
    rcases hrest : firstNearestInterval c rest with _ | s <;> rw [hrest] at h
    · simp at h
      simp [h]
    · by_cases hd : circDist c a ≤ circDist c s
      · simp [hd] at h
        simp [h]
      · simp [hd] at h
        rw [← h]
        exact List.mem_cons_of_mem _ (ih hrest)

lemma firstNearestInterval_min {c : ℤ} : ∀ {l : List ℤ} {r : ℤ},
    firstNearestInterval c l = some r → ∀ j ∈ l, circDist c r ≤ circDist c j := by
  intro l
  induction l with
  | nil => intro r h; simp [firstNearestInterval_nil] at h
  | cons a rest ih =>
    intro r h j hj
    rw [firstNearestInterval_cons] at h
    rcases hrest : firstNearestInterval c rest with _ | s <;> rw [hrest] at h
    · have hrest0 : rest = [] := by
        cases rest with
        | nil => rfl
        | cons b bs =>
          obtain ⟨t, ht⟩ := firstNearestInterval_isSome c b bs
          rw [ht] at hrest
          cases hrest
      subst hrest0
      simp at h hj
      subst h
      subst hj
      exact le_refl _
    · by_cases hd : circDist c a ≤ circDist c s
      · simp [hd] at h
        subst h
        rcases List.mem_cons.mp hj with rfl | hj2
        · exact le_refl _
        · exact le_trans hd (ih hrest _ hj2)
      · simp [hd] at h
        subst h
        rcases List.mem_cons.mp hj with rfl | hj2
        · omega
        · exact ih hrest _ hj2

lemma foldl_nearestStep_eq (c : ℤ) : ∀ (l : List ℤ) (r : ℤ),
    l.foldl (nearestStep c) (circDist c r, r) =
      match firstNearestInterval c l with
      | none => (circDist c r, r)
      | some s => if circDist c s < circDist c r then (circDist c s, s)
                  else (circDist c r, r) := by
  intro l
  induction l with
  | nil => intro r; rfl
  | cons a rest ih =>
    intro r
    rw [List.foldl_cons, firstNearestInterval_cons]
    by_cases h : circDist c a < circDist c r
    · have hstep : nearestStep c (circDist c r, r) a = (circDist c a, a) := by
        simp [nearestStep, h]
      rw [hstep, ih a]
      rcases hrest : firstNearestInterval c rest with _ | s
      · simp [h]
      · by_cases hd : circDist c a ≤ circDist c s
        · have h1 : ¬ circDist c s < circDist c a := by omega
          simp [hd, h1, h]
        · have h1 : circDist c s < circDist c a := by omega
          have h2 : circDist c s < circDist c r := by omega
          simp [hd, h1, h2]
    · have hstep : nearestStep c (circDist c r, r) a = (circDist c r, r) := by
        simp [nearestStep, h]
      rw [hstep, ih r]
      rcases hrest : firstNearestInterval c rest with _ | s
      · simp [h]
      · by_cases hd : circDist c a ≤ circDist c s
        · have h1 : ¬ circDist c s < circDist c r := by omega
          simp [hd, h1, h]
        · simp [hd]

/-- On a nonempty interval list the source fold computes exactly the spec's
first-minimal interval. -/
lemma nearestInterval_eq_firstNearest (c a : ℤ) (rest : List ℤ) :
    some (nearestInterval c (a :: rest)) = firstNearestInterval c (a :: rest) := by
  unfold nearestInterval
  rw [List.foldl_cons]
  have hstep : nearestStep c (13, 0) a = (circDist c a, a) := by
    have h6 := circDist_le_six c a
    simp only [nearestStep]
    rw [if_pos (by omega : circDist c a < (13 : ℤ))]
  rw [hstep, foldl_nearestStep_eq c rest a, firstNearestInterval_cons]
  rcases hrest : firstNearestInterval c rest with _ | s
  · rfl
  · by_cases hd : circDist c a ≤ circDist c s
    · have h1 : ¬ circDist c s < circDist c a := by omega
      simp [hd, h1]
    · have h1 : circDist c s < circDist c a := by omega
      simp [hd, h1]

lemma noteClass_eq (midi root : ℤ) (hm : 0 ≤ midi) (hr : 0 ≤ root) (hr12 : root < 12) :
    noteClass midi root = (midi - root) % 12 := by
  unfold noteClass
  rw [Int.tmod_eq_emod hm (by norm_num)]
  rw [Int.tmod_eq_emod (by omega) (by norm_num)]
  omega

/-- C2 counterexample: with the reachable configuration root = 11 (B) and the
major-scale intervals, a detected D (rounded MIDI 50, relative class 3, not
in the scale) is rebuilt as `⌊50/12⌋·12 + 11 + 2 = 61`, a note in the *next*
floor-octave (`⌊61/12⌋ = 5 ≠ 4 = ⌊50/12⌋`) and 11 semitones above the
detected note — so "the target note is rebuilt in the same octave" is false
as stated. -/
theorem snapToScale_octave_counterexample :
    snapToScaleMidi 50 11 [0, 2, 4, 5, 7, 9, 11] = 61
    ∧ Int.fdiv 61 12 ≠ Int.fdiv 50 12 := by
  constructor
  · decide
  · decide

/-- C2 amended: for a configured scale (root in 0-11, intervals in 0-11) and
a rounded note `midi ≥ 0`, a pitch class (relative to the root, mod 12) in
the interval set keeps the note (hence maps to its own tempered frequency);
otherwise the code picks the interval at minimum circular semitone distance,
first in configured order on ties, and rebuilds the target as
`⌊midi/12⌋·12 + root + interval` — which stays in the same floor-octave
exactly when `root + interval < 12` (always true for the bundled root-0
scales, violated otherwise).  For root 0 and the major scale, detected class
1 (C♯) snaps to class 0 (C): MIDI 49 maps to 48. -/
theorem snapToScale_characterisation (midi root : ℤ) (intervals : List ℤ)
    (hm : 0 ≤ midi) (hr : 0 ≤ root) (hr12 : root < 12)
    (hint : ∀ i ∈ intervals, 0 ≤ i ∧ i < 12) :
    (noteClass midi root = (midi - root) % 12)
    ∧ ((midi - root) % 12 ∈ intervals → snapToScaleMidi midi root intervals = midi)
    ∧ (∀ r : ℤ, (midi - root) % 12 ∉ intervals →
        firstNearestInterval ((midi - root) % 12) intervals = some r →
          snapToScaleMidi midi root intervals = Int.fdiv midi 12 * 12 + root + r
          ∧ r ∈ intervals
          ∧ (∀ i ∈ intervals,
              circDist ((midi - root) % 12) r ≤ circDist ((midi - root) % 12) i)
          ∧ (root + r < 12 →
              Int.fdiv (snapToScaleMidi midi root intervals) 12 = Int.fdiv midi 12))
    ∧ snapToScaleMidi 49 0 [0, 2, 4, 5, 7, 9, 11] = 48
    ∧ (∀ a4 : ℝ, snapToScale midi root intervals a4
        = midiToFrequency ((snapToScaleMidi midi root intervals : ℤ) : ℝ) a4) := by
  have hnc := noteClass_eq midi root hm hr hr12
  refine ⟨hnc, ?_, ?_, by decide, fun a4 => rfl⟩
  · intro hmem
    unfold snapToScaleMidi
    rw [hnc, if_pos hmem]
  · intro r hnot hfirst
    have hne : snapToScaleMidi midi root intervals
        = Int.fdiv midi 12 * 12 + root + nearestInterval ((midi - root) % 12) intervals := by
      unfold snapToScaleMidi
      rw [hnc, if_neg hnot]
    obtain ⟨a, rest, rfl⟩ : ∃ a rest, intervals = a :: rest := by
      cases intervals with
      | nil => simp [firstNearestInterval_nil] at hfirst
      | cons a rest => exact ⟨a, rest, rfl⟩
    have heq : nearestInterval ((midi - root) % 12) (a :: rest) = r := by
      have h2 := nearestInterval_eq_firstNearest ((midi - root) % 12) a rest
      rw [hfirst] at h2
      exact Option.some.inj h2
    refine ⟨by rw [hne, heq], firstNearestInterval_mem hfirst,
      firstNearestInterval_min hfirst, ?_⟩
    intro hlt
    have hr0 : 0 ≤ r := (hint r (firstNearestInterval_mem hfirst)).1
    rw [hne, heq]
    simp only [show ∀ x : ℤ, Int.fdiv x 12 = x / 12 from
      fun x => Int.fdiv_eq_ediv x (by norm_num)]
    omega

/-- C2 witness: the non-member branch at MIDI 49 (C♯), root 0, major scale,
snapping to interval 0. -/
theorem snapToScale_characterisation_witness :
    ((0 : ℤ) ≤ 49 ∧ (0 : ℤ) ≤ 0 ∧ (0 : ℤ) < 12
      ∧ ((49 : ℤ) - 0) % 12 ∉ ([0, 2, 4, 5, 7, 9, 11] : List ℤ))
    ∧ snapToScaleMidi 49 0 [0, 2, 4, 5, 7, 9, 11] = Int.fdiv 49 12 * 12 + 0 + 0 :=
  ⟨⟨by norm_num, by norm_num, by norm_num, by decide⟩,
    ((snapToScale_characterisation 49 0 [0, 2, 4, 5, 7, 9, 11] (by norm_num)
        (by norm_num) (by norm_num) (by decide)).2.2.1 0 (by decide) (by decide)).1⟩

/-! ### RingBuffer (docs/processor.js lines 24-57; both variants identical)

The backing `Float32Array` is modelled as a fixed-length list; `write`
appends samples one at a time, advancing the cursor modulo the capacity and
saturating the `available` counter; `read` either reports unavailable or
gathers the most recent window, oldest first. -/

structure RingBuffer (α : Type) where
  buf : List α
  writeIndex : ℕ
  available : ℕ

/-- `new RingBuffer(size)`: `Float32Array` zero-initialises; the model fills
with `default`, and both counters start at 0. -/
def RingBuffer.new (α : Type) [Inhabited α] (size : ℕ) : RingBuffer α :=
  ⟨List.replicate size default, 0, 0⟩

/-- One iteration of the `write` loop (lines 32-38). -/
def RingBuffer.writeOne {α : Type} (rb : RingBuffer α) (x : α) : RingBuffer α :=
  { buf := rb.buf.set rb.writeIndex x
    writeIndex := (rb.writeIndex + 1) % rb.buf.length
    available := if rb.available < rb.buf.length then rb.available + 1 else rb.available }

/-- `write(data)`: the loop over an incoming block. -/
def RingBuffer.write {α : Type} (rb : RingBuffer α) (data : List α) : RingBuffer α :=
  data.foldl RingBuffer.writeOne rb

/-- `read(output)` with `M = output.length` (lines 41-52): `none` models the
`false` return (the output array is untouched — no partial read); otherwise
sample `i` is gathered at `(writeIndex - M + i + buffer.length) % buffer.length`. -/
def RingBuffer.read {α : Type} [Inhabited α] (rb : RingBuffer α) (M : ℕ) :
    Option (List α) :=
  if rb.available < M then none
  else some ((List.range M).map fun i : ℕ =>
    rb.buf.getD
      (((rb.writeIndex : ℤ) - (M : ℤ) + (i : ℤ) + (rb.buf.length : ℤ))
          % (rb.buf.length : ℤ)).toNat
      default)

/-- `read` as a state transformer: the method writes only into its output
array and assigns none of the receiver's fields, so the post-state rebuilds
the receiver field by field, unchanged. -/
def RingBuffer.readST {α : Type} [Inhabited α] (rb : RingBuffer α) (M : ℕ) :
    Option (List α) × RingBuffer α :=
  (rb.read M, { buf := rb.buf, writeIndex := rb.writeIndex, available := rb.available })

lemma RingBuffer.write_append {α : Type} (rb : RingBuffer α) (xs ys : List α) :
    rb.write (xs ++ ys) = (rb.write xs).write ys := by
  unfold RingBuffer.write
  rw [List.foldl_append]

lemma RingBuffer.write_singleton {α : Type} (rb : RingBuffer α) (x : α) :
    rb.write [x] = rb.writeOne x :=
  rfl

lemma getD_set_self {α : Type} (l : List α) (n : ℕ) (a d : α) (h : n < l.length) :
    (l.set n a).getD n d = a := by
  simp [List.getD_eq_getElem?_getD, List.getElem?_set_self, h]

lemma getD_set_ne {α : Type} (l : List α) (m n : ℕ) (a d : α) (h : m ≠ n) :
    (l.set m a).getD n d = l.getD n d := by
  simp [List.getD_eq_getElem?_getD, List.getElem?_set_ne h]

lemma getD_append_left {α : Type} (l l2 : List α) (n : ℕ) (d : α) (h : n < l.length) :
    (l ++ l2).getD n d = l.getD n d := by
  simp [List.getD_eq_getElem?_getD, List.getElem?_append_left h]

lemma int_add_emod_self (x n : ℤ) : (x + n) % n = x % n := by
  have h1 : x + n = x + n * 1 := by ring
  rw [h1, Int.add_mul_emod_self_left]

lemma toNat_intCast_mod (j C : ℕ) : ((j : ℤ) % (C : ℤ)).toNat = j % C := by
  have h : ((j % C : ℕ) : ℤ) = (j : ℤ) % (C : ℤ) := by push_cast; ring
  rw [← h, Int.toNat_natCast]

/-- State invariant after writing an arbitrary history `h` into a fresh
buffer of capacity `C`: the cursor is `h.length % C`, the counter saturates
at `C`, and slot `j % C` holds `h[j]` for every index `j` in the last
`C`-window of the history. -/
lemma RingBuffer.write_invariant {α : Type} [Inhabited α] (C : ℕ) (hC : 0 < C)
    (h : List α) :
    ((RingBuffer.new α C).write h).buf.length = C
    ∧ ((RingBuffer.new α C).write h).writeIndex = h.length % C
    ∧ ((RingBuffer.new α C).write h).available = min h.length C
    ∧ ∀ j, j < h.length → h.length ≤ j + C →
        ((RingBuffer.new α C).write h).buf.getD (j % C) default = h.getD j default := by
  induction h using List.reverseRecOn with
  | nil =>
    refine ⟨by simp [RingBuffer.new, RingBuffer.write], ?_, ?_, ?_⟩
    · simp [RingBuffer.new, RingBuffer.write]
    · simp [RingBuffer.new, RingBuffer.write]
    · intro j hj
      simp at hj
  | append_singleton t x ih =>
    obtain ⟨ihlen, ihwi, ihav, ihbuf⟩ := ih
    rw [RingBuffer.write_append, RingBuffer.write_singleton]
    refine ⟨?_, ?_, ?_, ?_⟩
    · simp [RingBuffer.writeOne, ihlen]
    · simp [RingBuffer.writeOne, ihlen, ihwi, Nat.mod_add_mod]
    · simp only [RingBuffer.writeOne, ihlen, ihav, List.length_append,
        List.length_singleton]
      split_ifs <;> omega
    · intro j hj hjC
      rw [List.length_append, List.length_singleton] at hj hjC
      by_cases hje : j = t.length
      · subst hje
        have hlt : t.length % C < ((RingBuffer.new α C).write t).buf.length := by
          rw [ihlen]
          exact Nat.mod_lt _ hC
        simp only [RingBuffer.writeOne, ihwi]
        rw [getD_set_self _ _ _ _ hlt]
        simp [List.getD_eq_getElem?_getD]
      · have hj2 : j < t.length := by omega
        have hslot : t.length % C ≠ j % C := by
          intro heq
          have hmod : Nat.ModEq C j t.length := heq.symm
          have hdvd : C ∣ t.length - j := (Nat.modEq_iff_dvd' (le_of_lt hj2)).mp hmod
          have hle := Nat.le_of_dvd (by omega) hdvd
          omega
        simp only [RingBuffer.writeOne, ihwi]
        rw [getD_set_ne _ _ _ _ _ hslot, ihbuf j hj2 (by omega),
          getD_append_left _ _ _ _ hj2]

/-- C4: after any history of writes into a capacity-`C` buffer, a read of
`M ≤ C` samples succeeds exactly when at least `M` samples have ever been
written, in which case it returns the most recent `M` samples in
chronological order; otherwise it reports unavailable with no partial read.
Writes of blocks compose into the flat history (`write_append`), so this
covers every sequence of block writes. -/
theorem ringBuffer_read_most_recent (α : Type) [Inhabited α] (C : ℕ) (hC : 0 < C)
    (h : List α) (M : ℕ) (hM : M ≤ C) :
    (M ≤ h.length →
      ((RingBuffer.new α C).write h).read M = some (h.drop (h.length - M)))
    ∧ (h.length < M → ((RingBuffer.new α C).write h).read M = none)
    ∧ (∀ xs ys : List α,
        (RingBuffer.new α C).write (xs ++ ys) = ((RingBuffer.new α C).write xs).write ys) := by
  obtain ⟨hlen, hwi, hav, hbuf⟩ := RingBuffer.write_invariant C hC h
  refine ⟨?_, ?_, fun xs ys => RingBuffer.write_append _ xs ys⟩
  · intro hMl
    unfold RingBuffer.read
    rw [hav, if_neg (by omega : ¬ (min h.length C < M))]
    congr 1
    apply List.ext_getElem
    · simp only [List.length_map, List.length_range, List.length_drop]
      omega
    · intro i h1 h2
      simp only [List.getElem_map, List.getElem_range]
      have hi : i < M := by simpa using h1
      have hix : ((((RingBuffer.new α C).write h).writeIndex : ℤ) - (M : ℤ) + (i : ℤ)
            + ((((RingBuffer.new α C).write h).buf.length : ℕ) : ℤ))
            % ((((RingBuffer.new α C).write h).buf.length : ℕ) : ℤ)
          = (((h.length - M + i : ℕ)) : ℤ) % (C : ℤ) := by
        rw [hwi, hlen]
        have e0 : ((h.length % C : ℕ) : ℤ) - M + i + C
            = ((h.length % C : ℕ) : ℤ) + ((i : ℤ) - M) + C := by ring
        have e1 : (((h.length % C : ℕ) : ℤ) + ((i : ℤ) - M) + C) % (C : ℤ)
            = (((h.length % C : ℕ) : ℤ) + ((i : ℤ) - M)) % (C : ℤ) :=
          int_add_emod_self _ _
        have e2 : ((h.length % C : ℕ) : ℤ) = (h.length : ℤ) % (C : ℤ) := by
          push_cast
          ring
        have e3 : ((h.length : ℤ) % (C : ℤ) + ((i : ℤ) - M)) % (C : ℤ)
            = ((h.length : ℤ) + ((i : ℤ) - M)) % (C : ℤ) :=
          Int.emod_add_emod _ _ _
        have e4 : (h.length : ℤ) + ((i : ℤ) - M) = (((h.length - M + i : ℕ)) : ℤ) := by
          omega
        rw [e0, e1, e2, e3, e4]
      rw [hix, toNat_intCast_mod]
      rw [hbuf (h.length - M + i) (by omega) (by omega)]
      have h3 : h.length - M + i < h.length := by omega
      have hdrop : (h.drop (h.length - M))[i] = h[h.length - M + i] := by
        rw [List.getElem_drop]
      rw [hdrop]
      simp [List.getD_eq_getElem?_getD, List.getElem?_eq_getElem h3]
  · intro hlM
    unfold RingBuffer.read
    rw [hav, if_pos (by omega : min h.length C < M)]

/-- C4 witness: capacity 3, history `[1, 2, 3, 4]`, read length 2 returns
the two most recent samples `[3, 4]` in order. -/
theorem ringBuffer_read_most_recent_witness :
    ((0 : ℕ) < 3 ∧ (2 : ℕ) ≤ 3 ∧ (2 : ℕ) ≤ 4)
    ∧ ((RingBuffer.new ℕ 3).write [1, 2, 3, 4]).read 2
        = some (([1, 2, 3, 4] : List ℕ).drop ([1, 2, 3, 4].length - 2)) :=
  ⟨⟨by norm_num, by norm_num, by norm_num⟩,
    (ringBuffer_read_most_recent ℕ 3 (by norm_num) [1, 2, 3, 4] 2 (by norm_num)).1
      (by norm_num)⟩

/-- C10: `read` is non-destructive — the JS method assigns none of the
receiver's fields, so cursor, counter and stored samples are unchanged and
an immediately repeated read of the same length returns identical data. -/
theorem ringBuffer_read_nondestructive (α : Type) [Inhabited α]
    (rb : RingBuffer α) (M : ℕ) :
    (rb.readST M).2.writeIndex = rb.writeIndex
    ∧ (rb.readST M).2.available = rb.available
    ∧ (rb.readST M).2.buf = rb.buf
    ∧ (rb.readST M).2 = rb
    ∧ ((rb.readST M).2.readST M).1 = (rb.readST M).1 :=
  ⟨rfl, rfl, rfl, rfl, rfl⟩

/-! ### Parabolic interpolation (src/audio/pitch-utils.ts lines 189-208 and
the YIN detector variant, docs/processor.js lines 135-155)

Both variants are purely rational, so they are modelled over `ℚ`; the
`1e-10` threshold is exactly `1 / 10^10`.  Out-of-range reads cannot occur
past the boundary guard, so `getD` with default 0 is exact. -/

/-- `alpha - 2 * beta + gamma` (pitch-utils line 201). -/
def pDenominator (m : List ℚ) (b : ℤ) : ℚ :=
  m.getD (b - 1).toNat 0 - 2 * m.getD b.toNat 0 + m.getD (b + 1).toNat 0

/-- `p = 0.5 * (alpha - gamma) / denominator` (pitch-utils line 206). -/
def pOffset (m : List ℚ) (b : ℤ) : ℚ :=
  1 / 2 * (m.getD (b - 1).toNat 0 - m.getD (b + 1).toNat 0) / pDenominator m b

/-- pitch-utils `parabolicInterpolation(magnitudes, peakBin)`: boundary and
near-zero-denominator guards return the unrefined bin; otherwise the offset
is applied unconditionally (there is no `|p| < 1` check in this variant). -/
def parabolicInterpolation (magnitudes : List ℚ) (peakBin : ℤ) : ℚ :=
  if peakBin ≤ 0 ∨ peakBin ≥ (magnitudes.length : ℤ) - 1 then (peakBin : ℚ)
  else if |pDenominator magnitudes peakBin| < 1 / 10000000000 then (peakBin : ℚ)
  else (peakBin : ℚ) + pOffset magnitudes peakBin

/-- `denom = 2 * s1 - s2 - s0` (processor.js line 144). -/
def yinDenom (yb : List ℚ) (tau : ℤ) : ℚ :=
  2 * yb.getD tau.toNat 0 - yb.getD (tau + 1).toNat 0 - yb.getD (tau - 1).toNat 0

/-- `adjustment = (s2 - s0) / (2 * denom)` (processor.js line 149). -/
def yinAdjustment (yb : List ℚ) (tau : ℤ) : ℚ :=
  (yb.getD (tau + 1).toNat 0 - yb.getD (tau - 1).toNat 0) / (2 * yinDenom yb tau)

/-- `YINDetector.parabolicInterpolation(tauEstimate)` (processor.js lines
135-155): boundary, near-zero denominator, and additionally a `|adjustment|
< 1` guard before applying the refinement. -/
def yinParabolicInterpolation (yb : List ℚ) (halfBuffer : ℕ) (tau : ℤ) : ℚ :=
  if tau < 1 ∨ tau ≥ (halfBuffer : ℤ) - 1 then (tau : ℚ)
  else if |yinDenom yb tau| < 1 / 10000000000 then (tau : ℚ)
  else if |yinAdjustment yb tau| < 1 then (tau : ℚ) + yinAdjustment yb tau
  else (tau : ℚ)

/-- C5 counterexample: the spectral `parabolicInterpolation` applies an
offset of magnitude `21/2 ≥ 1` instead of returning the unrefined bin: on
magnitudes `[0, 1, 2.1]` at bin 1 the denominator is `0.1` (non-negligible)
and the function returns `1 - 21/2 = -19/2`, not `1`.  The claimed
"offset's magnitude stays below 1 bin, in every other case the unrefined
bin is returned" holds only for the YIN-detector variant. -/
theorem parabolicInterpolation_large_offset_counterexample :
    parabolicInterpolation [0, 1, 21 / 10] 1 = -(19 / 2)
    ∧ (1 : ℚ) ≤ |pOffset [0, 1, 21 / 10] 1|
    ∧ (-(19 / 2) : ℚ) ≠ 1 := by
  have e2 : Int.toNat 2 = 2 := rfl
  refine ⟨?_, ?_, by norm_num⟩
  · norm_num [parabolicInterpolation, pOffset, pDenominator, List.getD, e2]
    rw [abs_of_pos (by norm_num : (0 : ℚ) < 1 / 10)]
    norm_num
  · norm_num [pOffset, pDenominator, List.getD, e2]
    rw [abs_of_pos (by norm_num : (0 : ℚ) < 21 / 2)]
    norm_num

/-- C5 amended: both variants return the unrefined bin at the array
boundary and when the denominator is negligible (`< 1e-10`), so the division
is always guarded; the YIN variant additionally falls back whenever the
offset's magnitude reaches 1 bin, applying the refinement only when
`|adjustment| < 1`; the spectral variant applies its offset unconditionally
past the denominator guard, but at a strict local maximum that offset is
provably at most half a bin. -/
theorem parabolicInterpolation_guards (m yb : List ℚ) (halfBuffer : ℕ) (b tau : ℤ) :
    (b ≤ 0 ∨ b ≥ (m.length : ℤ) - 1 → parabolicInterpolation m b = b)
    ∧ (|pDenominator m b| < 1 / 10000000000 → parabolicInterpolation m b = b)
    ∧ (tau < 1 ∨ tau ≥ (halfBuffer : ℤ) - 1 →
        yinParabolicInterpolation yb halfBuffer tau = tau)
    ∧ (|yinDenom yb tau| < 1 / 10000000000 →
        yinParabolicInterpolation yb halfBuffer tau = tau)
    ∧ (1 ≤ |yinAdjustment yb tau| → yinParabolicInterpolation yb halfBuffer tau = tau)
    ∧ (¬ (tau < 1 ∨ tau ≥ (halfBuffer : ℤ) - 1) →
        ¬ |yinDenom yb tau| < 1 / 10000000000 → |yinAdjustment yb tau| < 1 →
        yinParabolicInterpolation yb halfBuffer tau = tau + yinAdjustment yb tau)
    ∧ (m.getD (b - 1).toNat 0 < m.getD b.toNat 0 →
        m.getD (b + 1).toNat 0 < m.getD b.toNat 0 →
        |parabolicInterpolation m b - b| ≤ 1 / 2) := by
  refine ⟨?_, ?_, ?_, ?_, ?_, ?_, ?_⟩
  · intro hb
    unfold parabolicInterpolation
    rw [if_pos hb]
  · intro hd
    unfold parabolicInterpolation
    by_cases hb : b ≤ 0 ∨ b ≥ (m.length : ℤ) - 1
    · rw [if_pos hb]
    · rw [if_neg hb, if_pos hd]
  · intro ht
    unfold yinParabolicInterpolation
    rw [if_pos ht]
  · intro hd
    unfold yinParabolicInterpolation
    by_cases ht : tau < 1 ∨ tau ≥ (halfBuffer : ℤ) - 1
    · rw [if_pos ht]
    · rw [if_neg ht, if_pos hd]
  · intro ha
    unfold yinParabolicInterpolation
    by_cases ht : tau < 1 ∨ tau ≥ (halfBuffer : ℤ) - 1
    · rw [if_pos ht]
    · rw [if_neg ht]
      by_cases hd : |yinDenom yb tau| < 1 / 10000000000
      · rw [if_pos hd]
      · rw [if_neg hd, if_neg (by linarith : ¬ |yinAdjustment yb tau| < 1)]
  · intro h1 h2 h3
    unfold yinParabolicInterpolation
    rw [if_neg h1, if_neg h2, if_pos h3]
  · intro hα hγ
    unfold parabolicInterpolation
    split_ifs with h1 h2
    · rw [sub_self, abs_zero]
      norm_num
    · rw [sub_self, abs_zero]
      norm_num
    · have hD : pDenominator m b < 0 := by
        unfold pDenominator
        linarith
      have hDpos : 0 < |pDenominator m b| := abs_pos.mpr (ne_of_lt hD)
      have habs : |m.getD (b - 1).toNat 0 - m.getD (b + 1).toNat 0|
          ≤ |pDenominator m b| := by
        rw [abs_of_neg hD]
        rw [abs_le]
        constructor
        · unfold pDenominator
          linarith
        · unfold pDenominator
          linarith
      have hoff : |pOffset m b| ≤ 1 / 2 := by
        unfold pOffset
        rw [abs_div, abs_mul, abs_of_pos (by norm_num : (0 : ℚ) < 1 / 2)]
        rw [div_le_iff₀ hDpos]
        nlinarith [habs, abs_nonneg (m.getD (b - 1).toNat 0 - m.getD (b + 1).toNat 0)]
      have he : (b : ℚ) + pOffset m b - b = pOffset m b := by ring
      rw [he]
      exact hoff

/-- C5 witness: the near-zero-denominator guard on flat magnitudes
`[1, 1, 1]` at bin 1. -/
theorem parabolicInterpolation_guards_witness :
    |pDenominator [1, 1, 1] 1| < 1 / 10000000000
    ∧ parabolicInterpolation [1, 1, 1] 1 = 1 := by
  have e2 : Int.toNat 2 = 2 := rfl
  have hd : |pDenominator [1, 1, 1] 1| < 1 / 10000000000 := by
    norm_num [pDenominator, List.getD, e2]
  have h := (parabolicInterpolation_guards [1, 1, 1] [] 0 1 0).2.1 hd
  exact ⟨hd, by rw [h]; norm_num⟩

/-! ### Oscillator band-limiting (docs/processor.js Oscillator.process)

Only the harmonic orders matter for the Nyquist claim, so the model lists
the orders `n` each additive branch sums; the component at order `n` has
frequency `n * f`. -/

/-- `Math.floor(this.oscSampleRate / (2 * this.frequency))` (lines 237/249). -/
def maxHarmonic (sr f : ℚ) : ℤ := ⌊sr / (2 * f)⌋

/-- Harmonic orders of the YIN-variant band-limited triangle (lines
237-242): `n = 2k + 1` for `0 ≤ k < min(maxHarmonic, 10)` — the *count* of
odd harmonics is capped, not their order. -/
def triangleHarmonics (sr f : ℚ) : List ℤ :=
  (List.range (min (maxHarmonic sr f).toNat 10)).map fun k : ℕ => 2 * (k : ℤ) + 1

/-- Harmonic orders of the YIN-variant band-limited sawtooth (lines
249-252): `1 ≤ k ≤ min(maxHarmonic, 12)`. -/
def sawtoothHarmonics (sr f : ℚ) : List ℤ :=
  (List.range' 1 (min (maxHarmonic sr f).toNat 12)).map fun k : ℕ => (k : ℤ)

/-- The FFT-variant sawtooth (lines 720-726) sums a fixed `k = 1..8`
regardless of frequency. -/
def sawtoothHarmonicsFFT : List ℤ :=
  (List.range' 1 8).map fun k : ℕ => (k : ℤ)

/-- The sawtooth branch of the YIN variant *is* Nyquist-safe: every summed
order `n ≤ maxHarmonic ≤ sr/(2f)`, so `n * f ≤ sr / 2`. -/
lemma sawtoothHarmonics_nyquist_safe (sr f : ℚ) (hf : 0 < f) :
    ∀ n ∈ sawtoothHarmonics sr f, (n : ℚ) * f ≤ sr / 2 := by
  intro n hn
  unfold sawtoothHarmonics at hn
  obtain ⟨k, hk, rfl⟩ := List.mem_map.mp hn
  rw [List.mem_range'] at hk
  obtain ⟨hk1, hk2⟩ := hk
  have hkN : k ≤ (maxHarmonic sr f).toNat := by omega
  have hM0 : 0 ≤ maxHarmonic sr f := by
    by_contra hneg
    push_neg at hneg
    have : (maxHarmonic sr f).toNat = 0 := Int.toNat_of_nonpos (le_of_lt hneg)
    omega
  have hkZ : (k : ℤ) ≤ maxHarmonic sr f := by
    omega
  have hkQ : ((k : ℤ) : ℚ) ≤ sr / (2 * f) := by
    have := Int.le_floor.mp hkZ
    exact this
  have h2f : (0 : ℚ) < 2 * f := by linarith
  have := (le_div_iff₀ h2f).mp hkQ
  push_cast
  push_cast at this
  linarith

/-- C3 (code bug exhibit): at sample rate 48000 and frequency 2000 the
YIN-variant triangle sums the odd harmonic of order 19 — a 38000 Hz
component, above the 24000 Hz Nyquist limit — because the loop caps the
*count* of odd harmonics at `min(⌊sr/(2f)⌋, 10)` while their orders reach
`2·count − 1`.  The FFT-variant sawtooth likewise sums a fixed order 8,
which exceeds Nyquist for any frequency above 3000 Hz (its band allows up
to 4000 Hz). -/
theorem triangle_harmonic_exceeds_nyquist :
    (19 : ℤ) ∈ triangleHarmonics 48000 2000
    ∧ (48000 : ℚ) / 2 < (19 : ℚ) * 2000
    ∧ (8 : ℤ) ∈ sawtoothHarmonicsFFT
    ∧ (48000 : ℚ) / 2 < (8 : ℚ) * 3500 := by
  have hm : maxHarmonic 48000 2000 = 12 := by
    unfold maxHarmonic
    norm_num
  refine ⟨?_, by norm_num, by decide, by norm_num⟩
  unfold triangleHarmonics
  rw [hm]
  decide

/-! ### Confidence decay on rejected hops (docs/processor.js lines 524-530)

State per voice: `(smoothedPitches[0], smoothedConfidences[0])`. -/

/-- One analysis hop whose raw estimate is rejected (`frequency = 0` or
`confidence ≤ confidenceThreshold * 0.5`): confidence decays by 0.9 and,
once below 0.05, the smoothed frequency is zeroed. -/
def rejectHop (s : ℚ × ℚ) : ℚ × ℚ :=
  (if s.2 * (9 / 10) < 1 / 20 then 0 else s.1, s.2 * (9 / 10))

lemma rejectHop_snd (s : ℚ × ℚ) : (rejectHop s).2 = s.2 * (9 / 10) :=
  rfl

lemma rejectHop_fst (s : ℚ × ℚ) :
    (rejectHop s).1 = if s.2 * (9 / 10) < 1 / 20 then 0 else s.1 :=
  rfl

lemma rejectHop_iterate_conf (p c : ℚ) : ∀ n : ℕ,
    (rejectHop^[n] (p, c)).2 = c * (9 / 10) ^ n := by
  intro n
  induction n with
  | zero => simp
  | succ m ih =>
    rw [Function.iterate_succ_apply', rejectHop_snd, ih]
    ring

lemma decayed_conf_small (c : ℚ) (n : ℕ) (h : 180 * c < (n : ℚ)) :
    c * (9 / 10) ^ n < 1 / 20 := by
  rcases le_or_lt c 0 with hc | hc
  · have hp : (0 : ℚ) < (9 / 10) ^ n := pow_pos (by norm_num) n
    nlinarith
  · have hpow : (1 : ℚ) + (n : ℚ) * (1 / 9) ≤ (10 / 9) ^ n := by
      have hb := one_add_mul_le_pow (show (-2 : ℚ) ≤ 1 / 9 by norm_num) n
      have he : ((1 : ℚ) + 1 / 9) = 10 / 9 := by norm_num
      rw [he] at hb
      exact hb
    have hppos : (0 : ℚ) < (10 / 9) ^ n := pow_pos (by norm_num) n
    have hinv : (9 / 10 : ℚ) ^ n * (10 / 9) ^ n = 1 := by
      rw [← mul_pow]
      norm_num
    have h20 : c * 20 < (10 / 9) ^ n := by
      have : c * 20 < 1 + (n : ℚ) * (1 / 9) := by linarith
      linarith
    have key : c * (9 / 10) ^ n * (10 / 9) ^ n < (1 / 20) * (10 / 9) ^ n := by
      rw [mul_assoc, hinv, mul_one]
      nlinarith
    exact lt_of_mul_lt_mul_right (by linarith [key]) (le_of_lt hppos)

/-- C7: on every rejected hop the smoothed confidence is multiplied by 0.9
and the smoothed frequency is zeroed as soon as the decayed confidence drops
below 0.05; consequently, along any unbroken run of rejected hops the
confidence is `c·0.9^n` and from hop `⌈180·c⌉ + 1` on the voice is and
remains Silent (smoothed frequency 0). -/
theorem reject_decay_reaches_silence (p c : ℚ) (n : ℕ) (h1 : 1 ≤ n)
    (h2 : 180 * c < (n : ℚ)) :
    (∀ s : ℚ × ℚ, rejectHop s
        = (if s.2 * (9 / 10) < 1 / 20 then 0 else s.1, s.2 * (9 / 10)))
    ∧ (rejectHop^[n] (p, c)).2 = c * (9 / 10) ^ n
    ∧ (rejectHop^[n] (p, c)).1 = 0 := by
  refine ⟨fun s => rfl, rejectHop_iterate_conf p c n, ?_⟩
  obtain ⟨m, rfl⟩ : ∃ m, n = m + 1 := by
    cases n with
    | zero => omega
    | succ m => exact ⟨m, rfl⟩
  rw [Function.iterate_succ_apply', rejectHop_fst, rejectHop_iterate_conf p c m]
  have hsmall : c * (9 / 10) ^ m * (9 / 10) < 1 / 20 := by
    have h3 := decayed_conf_small c (m + 1) h2
    calc c * (9 / 10) ^ m * (9 / 10) = c * (9 / 10) ^ (m + 1) := by ring
    _ < 1 / 20 := h3
  rw [if_pos hsmall]

/-- C7 witness: from pitch 440 Hz and confidence 1, after 181 rejected hops
the voice is Silent. -/
theorem reject_decay_reaches_silence_witness :
    ((1 : ℕ) ≤ 181 ∧ (180 : ℚ) * 1 < (181 : ℚ))
    ∧ (rejectHop^[181] (440, 1)).1 = 0 :=
  ⟨⟨by norm_num, by norm_num⟩,
    (reject_decay_reaches_silence 440 1 181 (by norm_num) (by norm_num)).2.2⟩

/-! ### YIN pitch detection (docs/processor.js YINDetector, lines 64-182)

`YIN_THRESHOLD = 0.15 = 3/20`; `MIN_FREQUENCY = 150`, `MAX_FREQUENCY =
2000`.  The constructor derives `halfBuffer = ⌊bufferSize/2⌋`,
`minPeriod = ⌊sr/2000⌋` and `maxPeriod = min(⌊sr/150⌋, halfBuffer − 1)`.
All arithmetic is rational; division is total (`x / 0 = 0`), which stands
in for the JS `Infinity`/`NaN` escapes: a zero refined lag gives candidate
frequency 0, rejected like the non-finite JS value (the one divergence is a
running sum that is *exactly* zero — constant input — where JS produces
NaN; the real-number model is exact there instead). -/

/-- Step 1 (lines 82-88): `d[tau] = Σ_{i<half} (b[i] − b[i+tau])²`. -/
def diffFunction (buffer : List ℚ) (half : ℕ) : List ℚ :=
  (List.range half).map fun tau =>
    ((List.range half).map fun i =>
      (buffer.getD i 0 - buffer.getD (i + tau) 0)
        * (buffer.getD i 0 - buffer.getD (i + tau) 0)).sum

/-- Step 2 (lines 90-96): cumulative mean normalized difference.
`yb[0] = 1`; for `tau ≥ 1`, `yb[tau] = d[tau] · tau / Σ_{j=1..tau} d[j]`
(the running sum accumulates the raw values before each overwrite). -/
def cmndf (d : List ℚ) : List ℚ :=
  (List.range d.length).map fun tau =>
    if tau = 0 then 1
    else d.getD tau 0 * tau / ((List.range tau).map fun j => d.getD (j + 1) 0).sum

/-- `computeDifference` composes both steps into `this.yinBuffer`. -/
def computeDifference (buffer : List ℚ) (half : ℕ) : List ℚ :=
  cmndf (diffFunction buffer half)

/-- The inner `while` of `absoluteThreshold` (lines 110-112): walk forward
while the normalized difference keeps decreasing. -/
def walkMin (yb : List ℚ) (maxP tau : ℕ) : ℕ :=
  if h : tau + 1 < maxP ∧ yb.getD (tau + 1) 0 < yb.getD tau 0 then
    walkMin yb maxP (tau + 1)
  else tau
termination_by maxP - tau
decreasing_by omega

/-- The search loop of `absoluteThreshold` (lines 107-116): first lag below
the threshold, then walk to the local minimum. -/
def searchThreshold (yb : List ℚ) (maxP tau : ℕ) : Option ℕ :=
  if tau < maxP then
    if yb.getD tau 0 < 3 / 20 then some (walkMin yb maxP tau)
    else searchThreshold yb maxP (tau + 1)
  else none
termination_by maxP - tau

/-- The fallback global-minimum scan (lines 119-126). -/
def globalMin (yb : List ℚ) (minP maxP : ℕ) : ℕ × ℚ :=
  (List.range' (minP + 1) (maxP - (minP + 1))).foldl
    (fun acc tau => if yb.getD tau 0 < acc.2 then (tau, yb.getD tau 0) else acc)
    (minP, yb.getD minP 0)

/-- `absoluteThreshold` (lines 103-130) returning the chosen lag together
with `this.probability`, which both paths set to `1 − yb[lag]`. -/
def absoluteThreshold (yb : List ℚ) (minP maxP : ℕ) : ℕ × ℚ :=
  match searchThreshold yb maxP minP with
  | some tau => (tau, 1 - yb.getD tau 0)
  | none => ((globalMin yb minP maxP).1, 1 - (globalMin yb minP maxP).2)

/-- `detect(buffer)` (lines 160-182). -/
def detect (bufferSize sr : ℕ) (buffer : List ℚ) : ℚ × ℚ :=
  let halfBuffer := bufferSize / 2
  let yb := computeDifference buffer halfBuffer
  let minP := sr / 2000
  let maxP := min (sr / 150) (halfBuffer - 1)
  let tp := absoluteThreshold yb minP maxP
  let refinedTau := yinParabolicInterpolation yb halfBuffer tp.1
  let frequency := (sr : ℚ) / refinedTau
  if frequency < 150 ∨ frequency > 2000 then (0, 0)
  else (frequency, max 0 (min 1 tp.2))

lemma globalMin_snd (yb : List ℚ) (minP maxP : ℕ) :
    (globalMin yb minP maxP).2 = yb.getD (globalMin yb minP maxP).1 0 := by
  unfold globalMin
  have hgen : ∀ (l : List ℕ) (acc : ℕ × ℚ), acc.2 = yb.getD acc.1 0 →
      (l.foldl (fun acc tau =>
          if yb.getD tau 0 < acc.2 then (tau, yb.getD tau 0) else acc) acc).2
        = yb.getD (l.foldl (fun acc tau =>
          if yb.getD tau 0 < acc.2 then (tau, yb.getD tau 0) else acc) acc).1 0 := by
    intro l
    induction l with
    | nil => intro acc h; exact h
    | cons a rest ih =>
      intro acc h
      rw [List.foldl_cons]
      by_cases hc : yb.getD a 0 < acc.2
      · exact ih _ (by rw [if_pos hc])
      · exact ih _ (by rw [if_neg hc]; exact h)
  exact hgen _ _ rfl

lemma absoluteThreshold_prob (yb : List ℚ) (minP maxP : ℕ) :
    (absoluteThreshold yb minP maxP).2
      = 1 - yb.getD (absoluteThreshold yb minP maxP).1 0 := by
  unfold absoluteThreshold
  rcases h : searchThreshold yb maxP minP with _ | tau
  · simp only []
    rw [globalMin_snd]
  · simp only []

/-- C6: `detect` returns `(0, 0)` — a clean no-detection, never an error —
whenever the candidate frequency `sr / refinedLag` lies outside
`[MIN_FREQUENCY, MAX_FREQUENCY] = [150, 2000]`; a zero refined lag (the
rational analogue of the non-finite JS candidate) is likewise rejected.
Otherwise it returns that frequency with confidence
`1 − yb[chosenLag]` clamped to `[0, 1]`. -/
theorem detect_band_and_confidence (bufferSize sr : ℕ) (buffer : List ℚ)
    (yb : List ℚ) (lag : ℕ) (freq : ℚ)
    (hyb : yb = computeDifference buffer (bufferSize / 2))
    (hlag : lag = (absoluteThreshold yb (sr / 2000)
        (min (sr / 150) (bufferSize / 2 - 1))).1)
    (hfreq : freq = (sr : ℚ) / yinParabolicInterpolation yb (bufferSize / 2) lag) :
    (freq < 150 ∨ freq > 2000 → detect bufferSize sr buffer = (0, 0))
    ∧ (¬ (freq < 150 ∨ freq > 2000) →
        detect bufferSize sr buffer = (freq, max 0 (min 1 (1 - yb.getD lag 0))))
    ∧ (yinParabolicInterpolation yb (bufferSize / 2) lag = 0 →
        detect bufferSize sr buffer = (0, 0)) := by
  subst hyb hlag hfreq
  unfold detect
  simp only []
  refine ⟨?_, ?_, ?_⟩
  · intro h
    rw [if_pos h]
  · intro h
    rw [if_neg h, absoluteThreshold_prob]
  · intro h
    rw [h, div_zero]
    rw [if_pos (Or.inl (by norm_num))]

/-- C6 witness: an 8-sample zero buffer at sample rate 48000.  The derived
lag range is empty (`minPeriod = 24 > maxPeriod = 3`), the fallback keeps
lag 24 with probability 1, the boundary guard leaves the lag unrefined, and
the candidate `48000 / 24 = 2000` sits exactly at `MAX_FREQUENCY`, so the
detector reports frequency 2000 with confidence clamped to 1. -/
theorem detect_band_and_confidence_witness :
    ¬ ((48000 : ℕ) / yinParabolicInterpolation
          (computeDifference (List.replicate 8 0) (8 / 2)) (8 / 2)
          (absoluteThreshold (computeDifference (List.replicate 8 0) (8 / 2))
            (48000 / 2000) (min (48000 / 150) (8 / 2 - 1))).1 < 150
        ∨ ((48000 : ℕ) : ℚ) / yinParabolicInterpolation
          (computeDifference (List.replicate 8 0) (8 / 2)) (8 / 2)
          (absoluteThreshold (computeDifference (List.replicate 8 0) (8 / 2))
            (48000 / 2000) (min (48000 / 150) (8 / 2 - 1))).1 > 2000)
    ∧ detect 8 48000 (List.replicate 8 0) = (2000, 1) := by
  have hyblen : (computeDifference (List.replicate 8 0) (8 / 2)).length = 4 := by
    simp [computeDifference, cmndf, diffFunction]
  have hlag : (absoluteThreshold (computeDifference (List.replicate 8 0) (8 / 2))
      (48000 / 2000) (min (48000 / 150) (8 / 2 - 1))).1 = 24 := by
    unfold absoluteThreshold
    rw [show searchThreshold (computeDifference (List.replicate 8 0) (8 / 2))
        (min (48000 / 150) (8 / 2 - 1)) (48000 / 2000) = none from by
      rw [searchThreshold]
      norm_num]
    simp only [globalMin]
    norm_num
  have hpar : yinParabolicInterpolation (computeDifference (List.replicate 8 0) (8 / 2))
      (8 / 2) ((24 : ℕ) : ℤ) = 24 := by
    unfold yinParabolicInterpolation
    rw [if_pos (show ((24 : ℕ) : ℤ) < 1 ∨ ((24 : ℕ) : ℤ) ≥ (((8 : ℕ) / 2 : ℕ) : ℤ) - 1 from
      Or.inr (by norm_num))]
    norm_num
  have hfreq : ((48000 : ℕ) : ℚ) / yinParabolicInterpolation
      (computeDifference (List.replicate 8 0) (8 / 2)) (8 / 2)
      (absoluteThreshold (computeDifference (List.replicate 8 0) (8 / 2))
        (48000 / 2000) (min (48000 / 150) (8 / 2 - 1))).1 = 2000 := by
    rw [hlag, hpar]
    norm_num
  have hnot : ¬ (((48000 : ℕ) : ℚ) / yinParabolicInterpolation
      (computeDifference (List.replicate 8 0) (8 / 2)) (8 / 2)
      (absoluteThreshold (computeDifference (List.replicate 8 0) (8 / 2))
        (48000 / 2000) (min (48000 / 150) (8 / 2 - 1))).1 < 150
      ∨ ((48000 : ℕ) : ℚ) / yinParabolicInterpolation
      (computeDifference (List.replicate 8 0) (8 / 2)) (8 / 2)
      (absoluteThreshold (computeDifference (List.replicate 8 0) (8 / 2))
        (48000 / 2000) (min (48000 / 150) (8 / 2 - 1))).1 > 2000) := by
    rw [hfreq]
    norm_num
  refine ⟨hnot, ?_⟩
  have h2 := (detect_band_and_confidence 8 48000 (List.replicate 8 0)
    (computeDifference (List.replicate 8 0) (8 / 2))
    ((absoluteThreshold (computeDifference (List.replicate 8 0) (8 / 2))
        (48000 / 2000) (min (48000 / 150) (8 / 2 - 1))).1)
    (((48000 : ℕ) : ℚ) / yinParabolicInterpolation
      (computeDifference (List.replicate 8 0) (8 / 2)) (8 / 2)
      (absoluteThreshold (computeDifference (List.replicate 8 0) (8 / 2))
        (48000 / 2000) (min (48000 / 150) (8 / 2 - 1))).1)
    rfl rfl rfl).2.1 hnot
  rw [h2, hfreq, hlag]
  have hgd : (computeDifference (List.replicate 8 0) (8 / 2)).getD 24 0 = 0 := by
    apply List.getD_eq_default
    rw [hyblen]
    norm_num
  rw [hgd]
  norm_num

end ViolinIntonation
